import Mathlib

/-!
Verification of the consistency core and overlay decision logic of
paste-anywhere, a P2P shared-clipboard overlay.

The embedding models `src/clock.rs` (vector clocks with a deterministic
tie-break for concurrent clocks), the state-reconciliation rule and the
pure decision logic of the connection handlers in `src/overlay.rs`, and
the message constructors of `src/network.rs`.

Representation choice: the Rust `VectorClock<HostType>` stores a
`HashMap<HostType, u64>`.  A `HashMap` is a finite partial map; we embed
it as its canonical form, the association list sorted strictly by key.
Structural `HashMap` equality (same key set, same values) coincides with
list equality on canonical forms; iteration-order nondeterminism is
irrelevant because every clock operation in the source is
order-insensitive (`superseded_by` computes a conjunction/disjunction
over entries, `is_greater_concurrent_than` explicitly sorts the
collected keys, `merge_with` takes a pointwise maximum).  The `WF`
predicate below states canonicity; it is the representation invariant
of the embedding, not a property of the Rust code.
-/

/-- Mirrors `enum TemporalRelation` in clock.rs. -/
inductive TemporalRelation where
  | Equal
  | Caused
  | EffectOf
  | ConcurrentGreater
  | ConcurrentSmaller
deriving DecidableEq, Repr

section Clock

variable {H : Type} [LinearOrder H]

/-- Mirrors `struct VectorClock<HostType>` in clock.rs: `entries` is the
canonical (key-sorted) association list of the `HashMap<HostType, u64>`. -/
structure VectorClock (H : Type) where
  entries : List (H × Nat)
deriving DecidableEq, Repr

namespace VectorClock

/-- The representation invariant of the embedding: the association list is
strictly sorted by key, hence a canonical form of a finite map. -/
def WF (c : VectorClock H) : Prop :=
  c.entries.Pairwise (fun p q => p.1 < q.1)

instance (c : VectorClock H) : Decidable (WF c) :=
  List.instDecidablePairwise _

/-- Lookup of a host counter; a missing key reads as zero, as in the Rust
code's `*other.entries.get(host).unwrap_or(&0)`. -/
def get : List (H × Nat) → H → Nat
  | [], _ => 0
  | (k, n) :: t, h => if h = k then n else get t h

/-- Counter of host `h` in clock `c`, missing keys reading as zero. -/
def count (c : VectorClock H) (h : H) : Nat :=
  get c.entries h

/-- The key sequence of the clock.  On a canonical (WF) representation this
list is already sorted, so it equals the `own_keys`/`other_keys` vectors that
`is_greater_concurrent_than` collects from the `HashMap` and then sorts. -/
def keys (c : VectorClock H) : List H :=
  c.entries.map Prod.fst

/-- Mirrors `VectorClock::new`: the empty map. -/
def new : VectorClock H := ⟨[]⟩

/-- Insert-or-bump on the canonical association list: the effect of the Rust
`entries.entry(host).or_insert(0); *count += 1` on the canonical form. -/
def bump : List (H × Nat) → H → List (H × Nat)
  | [], h => [(h, 1)]
  | (k, n) :: t, h =>
    if h < k then (h, 1) :: (k, n) :: t
    else if k < h then (k, n) :: bump t h
    else (k, n + 1) :: t

/-- Mirrors `VectorClock::incr`: increments the counter for `host` by one,
inserting it at zero first when absent. -/
def incr (c : VectorClock H) (host : H) : VectorClock H :=
  ⟨bump c.entries host⟩

/-- Mirrors `VectorClock::incr_clone`: same map transformation as `incr`,
performed on a copy (value semantics make the two identical here). -/
def incr_clone (c : VectorClock H) (host : H) : VectorClock H :=
  c.incr host

/-- Mirrors `VectorClock::superseded_by`.  The Rust function walks both entry
sets, returns `false` as soon as some counter of `self` exceeds the matching
counter of `other`, and otherwise returns whether some strictly smaller
counter was seen; that control flow computes exactly this conjunction of
entry-wise checks. -/
def superseded_by (a other : VectorClock H) : Bool :=
  (a.entries.all fun p => p.2 ≤ get other.entries p.1) &&
  (other.entries.all fun p => get a.entries p.1 ≤ p.2) &&
  ((a.entries.any fun p => p.2 < get other.entries p.1) ||
   (other.entries.any fun p => get a.entries p.1 < p.2))

/-- Rust's `Ord` on vectors/slices, as used by `own_keys.cmp(&other_keys)`:
lexicographic element comparison, a strict prefix ordering below the longer
sequence. -/
def cmpKeys : List H → List H → Ordering
  | [], [] => .eq
  | [], _ :: _ => .lt
  | _ :: _, [] => .gt
  | a :: as_, b :: bs =>
    if a < b then .lt
    else if b < a then .gt
    else cmpKeys as_ bs

/-- The counter walk in the `Ordering::Equal` arm of
`is_greater_concurrent_than`: visit the sorted keys in order, the first
unequal pair of counters decides; `none` is the `panic!("unable to resolve
concurrent clocks")` fall-through when every counter agrees. -/
def resolveCounters (a other : VectorClock H) : List H → Option Bool
  | [] => none
  | k :: ks =>
    if get a.entries k = get other.entries k then resolveCounters a other ks
    else if get a.entries k > get other.entries k then some true
    else some false

/-- Mirrors `VectorClock::is_greater_concurrent_than`: deterministic
tie-break for concurrent clocks.  `some true`/`some false` are the Rust
`true`/`false` returns, `none` is the `panic!` at the end of the counter
walk.  On WF clocks `keys` is already the sorted key vector the Rust code
builds. -/
def is_greater_concurrent_than (a other : VectorClock H) : Option Bool :=
  let own_keys := keys a
  let other_keys := keys other
  if own_keys.length > other_keys.length then some true
  else if other_keys.length > own_keys.length then some false
  else
    match cmpKeys own_keys other_keys with
    | .lt => some false
    | .gt => some true
    | .eq => resolveCounters a other own_keys

/-- Mirrors `VectorClock::temporal_relation`.  `none` propagates the panic of
the tie-break (proved unreachable below). -/
def temporal_relation (a other : VectorClock H) : Option TemporalRelation :=
  if a = other then some .Equal
  else if a.superseded_by other then some .Caused
  else if other.superseded_by a then some .EffectOf
  else
    match a.is_greater_concurrent_than other with
    | some true => some .ConcurrentGreater
    | some false => some .ConcurrentSmaller
    | none => none

/-- Pointwise-maximum merge of two canonical association lists: the effect of
the Rust `merge_with` loop (`entry(host).or_insert(other_n)` followed by a
max update) on the canonical form. -/
def mergeEntries : List (H × Nat) → List (H × Nat) → List (H × Nat)
  | [], b => b
  | p :: t, [] => p :: t
  | (h1, n1) :: t1, (h2, n2) :: t2 =>
    if h1 < h2 then (h1, n1) :: mergeEntries t1 ((h2, n2) :: t2)
    else if h2 < h1 then (h2, n2) :: mergeEntries ((h1, n1) :: t1) t2
    else (h1, max n1 n2) :: mergeEntries t1 t2
termination_by a b => a.length + b.length

/-- Mirrors `VectorClock::merge_with`: pointwise maximum across the union of
keys. -/
def merge_with (a other : VectorClock H) : VectorClock H :=
  ⟨mergeEntries a.entries other.entries⟩

/-- The clocks constructible by the source API (`new`, `incr`, `incr_clone`,
`merge_with`), the reachable set of claim C10. -/
inductive Reachable : VectorClock H → Prop where
  | new : Reachable new
  | incr (c : VectorClock H) (h : H) : Reachable c → Reachable (c.incr h)
  | incr_clone (c : VectorClock H) (h : H) :
      Reachable c → Reachable (c.incr_clone h)
  | merge_with (a b : VectorClock H) :
      Reachable a → Reachable b → Reachable (a.merge_with b)

/-- No explicit zero counters are stored: the invariant of claim C10. -/
def NoZeros (c : VectorClock H) : Prop :=
  ∀ p ∈ c.entries, 0 < p.2

instance (c : VectorClock H) : Decidable (NoZeros c) :=
  List.decidableBAll _ _

end VectorClock

end Clock

section Overlay

variable {H : Type} [LinearOrder H]

/-- Mirrors `struct CopyClock` in network.rs: a vector clock over peer IDs
together with the peer that last pressed copy.  Peer IDs (`Endpoint`, an
IPv4 address and port ordered lexicographically) are modelled as an
arbitrary linearly ordered type `H`. -/
structure CopyClock (H : Type) where
  clock : VectorClock H
  last_copy_src : H
deriving DecidableEq, Repr

/-- Mirrors `update_state` in overlay.rs: reconcile the stored state with an
incoming one and return the (possibly replaced) stored state.  `none`
propagates the tie-break panic of `temporal_relation`. -/
def update_state (overlay_state new_state : CopyClock H) : Option (CopyClock H) :=
  (overlay_state.clock.temporal_relation new_state.clock).map fun ord =>
    match ord with
    | .Equal => overlay_state
    | .EffectOf => overlay_state
    | .Caused => new_state
    | .ConcurrentGreater => overlay_state
    | .ConcurrentSmaller => new_state

/-- Mirrors `type MessageID = [u8; 16]` in network.rs. -/
abbrev MessageID := Fin 16 → Fin 256

/-- Mirrors `enum MessageType` in network.rs. -/
inductive MessageType (H : Type) where
  | JoinRequest
  | JoinResponse (target : H)
  | Ping (state : CopyClock H)
  | Pong (state : CopyClock H)
  | CopyNotification (state : CopyClock H)
  | CopyRequest (content_type : String)
  | TextResponse (text : String)
  | ErrorResponse (state : CopyClock H) (error : String)
deriving DecidableEq

/-- Mirrors `struct Message` in network.rs. -/
structure Message (H : Type) where
  message_id : MessageID
  message_type : MessageType H
  src_id : H
  ttl : Nat
  hop_count : Nat
deriving DecidableEq

/-- Mirrors `JoinConnection::respond` in network.rs: the `JoinResponse`
message built for `incoming`, targeting the original joiner. -/
def JoinConnection.respond (own_id : H) (incoming : Message H) : Message H :=
  { message_id := incoming.message_id
    message_type := .JoinResponse incoming.src_id
    src_id := own_id
    ttl := incoming.ttl
    hop_count := incoming.hop_count }

/-- Mirrors `JoinConnection::forward` in network.rs: the forwarded
`JoinRequest` with decremented TTL, incremented hop count, and unchanged
`message_id` and `src_id`. -/
def JoinConnection.forward (incoming : Message H) : Message H :=
  { message_id := incoming.message_id
    message_type := .JoinRequest
    src_id := incoming.src_id
    ttl := incoming.ttl - 1
    hop_count := incoming.hop_count + 1 }

/-- Mirrors `CopyConnection::respond` in network.rs; `mid` stands for the
randomly generated `message_id`. -/
def CopyConnection.respond (text : String) (local_id : H) (mid : MessageID) :
    Message H :=
  { message_id := mid
    message_type := .TextResponse text
    src_id := local_id
    ttl := 1
    hop_count := 0 }

/-- Mirrors `CopyConnection::respond_error` in network.rs; `mid` stands for
the randomly generated `message_id`. -/
def CopyConnection.respond_error (error : String) (state : CopyClock H)
    (local_id : H) (mid : MessageID) : Message H :=
  { message_id := mid
    message_type := .ErrorResponse state error
    src_id := local_id
    ttl := 1
    hop_count := 0 }

/-- The decision of `Overlay::handle_copy_connection` in overlay.rs: given
the snapshotted state and clipboard, the single response message sent before
the connection is closed. -/
def handle_copy_connection (own_id : H) (state_copy : CopyClock H)
    (clipboard : String) (mid : MessageID) : Message H :=
  if ¬ (state_copy.last_copy_src = own_id) then
    CopyConnection.respond_error "I don't have the latest clipboard" state_copy own_id mid
  else
    CopyConnection.respond clipboard own_id mid

/-- Outcome of `Overlay::handle_join_connection` in overlay.rs.
`closedDuplicate` is the immediate close on a seen `message_id`, with no
response and no forwarding; `replyAndClose` carries the single
`JoinResponse` of the `ttl <= 1` branch; `fanOut` is the flooding branch:
the forwarded request, the peers it goes to, and the node's own final
`JoinResponse` (the relaying of downstream responses in between is pure
I/O and outside this model). -/
inductive JoinOutcome (H : Type) where
  | closedDuplicate
  | replyAndClose (resp : Message H)
  | fanOut (fwd : Message H) (targets : List H) (finalResp : Message H)
deriving DecidableEq

/-- The decision structure of `Overlay::handle_join_connection` in
overlay.rs: duplicate suppression, then recording of the `message_id`, then
either the single reply (for `ttl <= 1`) or the flood.  Returns the updated
`seen_join_message_ids` alongside the outcome. -/
def handle_join_connection (peers : List H) (own_id : H) (msg : Message H)
    (seen_message_ids : List MessageID) : List MessageID × JoinOutcome H :=
  if msg.message_id ∈ seen_message_ids then
    (seen_message_ids, .closedDuplicate)
  else
    let seen := msg.message_id :: seen_message_ids
    if msg.ttl ≤ 1 then
      (seen, .replyAndClose (JoinConnection.respond own_id msg))
    else
      (seen, .fanOut (JoinConnection.forward msg) peers (JoinConnection.respond own_id msg))

/-- The mutable fields of `Overlay` that `get_clipboard` touches. -/
structure NodeState (H : Type) where
  state : CopyClock H
  cached_clipboard : String
  cache_state : CopyClock H
deriving DecidableEq

/-- What `conn.read_message()` yields on the requester's CopyConnection:
the two understood responses, or anything else. -/
inductive FetchResult (H : Type) where
  | textResponse (text : String)
  | errorResponse (state : CopyClock H) (error : String)
  | invalid
deriving DecidableEq

/-- Result of `Overlay::get_clipboard`: the returned
`Result<Option<String>>`, the node state afterwards, and whether a
CopyConnection was opened. -/
structure GetOutcome (H : Type) where
  result : Except String (Option String)
  ns : NodeState H
  openedConnection : Bool

/-- Mirrors `Overlay::get_clipboard` in overlay.rs.  `fetch` stands for the
response read from the CopyConnection (only consulted when one is opened);
`none` propagates the tie-break panic of `update_state` on the error path. -/
def get_clipboard (own_id : H) (ns : NodeState H) (fetch : FetchResult H) :
    Option (GetOutcome H) :=
  if ns.state.last_copy_src = own_id then
    some ⟨.ok none, ns, false⟩
  else if ns.cache_state = ns.state then
    some ⟨.ok (some ns.cached_clipboard), ns, false⟩
  else
    match fetch with
    | .errorResponse st err =>
        (update_state ns.state st).map fun new_state =>
          ⟨.error ("remote  replied with error: " ++ err), { ns with state := new_state }, true⟩
    | .textResponse text =>
        some ⟨.ok (some text), { ns with cached_clipboard := text, cache_state := ns.state }, true⟩
    | .invalid =>
        some ⟨.error "remote sent an invalid reply, check logs", ns, true⟩

end Overlay

/-! ### Concrete example values

Concrete clocks over `Nat` hosts (host `0` standing for test host "A", host
`1` for "B"), matching the scenarios of the clock.rs test module, together
with copy-clocks, node states and messages used as witnesses below. -/

/-- The clock with A:1, as built by `new().incr_clone("A")`. -/
def clockA : VectorClock Nat := ⟨[(0, 1)]⟩

/-- The clock with B:1, as built by `new().incr_clone("B")`. -/
def clockB : VectorClock Nat := ⟨[(1, 1)]⟩

/-- The clock with A:2, B:1 of the `test_complex_concurrent` scenario. -/
def clockAB : VectorClock Nat := ⟨[(0, 2), (1, 1)]⟩

/-- The clock with A:1, B:2 of the `test_complex_concurrent` scenario. -/
def clockBA : VectorClock Nat := ⟨[(0, 1), (1, 2)]⟩

/-- The copy-clock A:1 owned by peer 0. -/
def ccOld : CopyClock Nat := ⟨clockA, 0⟩

/-- The copy-clock A:2,B:1 owned by peer 1; `ccOld.clock` caused its clock. -/
def ccNew : CopyClock Nat := ⟨clockAB, 1⟩

/-- The copy-clock A:1,B:2 owned by peer 2, concurrent with `ccNew.clock`. -/
def ccIncoming : CopyClock Nat := ⟨clockBA, 2⟩

/-- A node state at peer 0 whose overlay state points at peer 1 and whose
cache is stale. -/
def nsStale : NodeState Nat := ⟨ccNew, "cached", ccOld⟩

/-- A node state at peer 0 whose cache matches the overlay state. -/
def nsFresh : NodeState Nat := ⟨ccNew, "cached", ccNew⟩

/-- A node state at peer 0 that itself holds the latest clipboard. -/
def nsOwn : NodeState Nat := ⟨ccOld, "cached", ccOld⟩

/-- A join request from peer 5 with TTL 1, with the all-zero message id. -/
def msgJoin : Message Nat :=
  ⟨fun _ => 0, .JoinRequest, 5, 1, 0⟩

/-! ### Helper lemmas about the canonical association-list representation -/

namespace VectorClock

variable {H : Type} [LinearOrder H]

theorem get_eq_zero_of_not_mem {l : List (H × Nat)} {h : H}
    (hn : ∀ p ∈ l, h ≠ p.1) : get l h = 0 := by
  induction l with
  | nil => rfl
  | cons p t ih =>
    obtain ⟨k, n⟩ := p
    have hk : h ≠ k := hn (k, n) (List.mem_cons_self _ _)
    simp only [get, if_neg hk]
    exact ih fun q hq => hn q (List.mem_cons_of_mem _ hq)

theorem get_eq_of_mem {l : List (H × Nat)} {h : H} {n : Nat}
    (hl : l.Pairwise (fun p q => p.1 < q.1)) (hm : (h, n) ∈ l) :
    get l h = n := by
  induction l with
  | nil => cases hm
  | cons p t ih =>
    obtain ⟨k, m⟩ := p
    rcases List.mem_cons.mp hm with heq | htl
    · obtain ⟨h1, h2⟩ := Prod.mk.injEq .. ▸ heq
      simp [get, h1, h2]
    · have hk : h ≠ k := by
        intro hcontra
        have := (List.pairwise_cons.mp hl).1 (h, n) htl
        simp only at this
        exact absurd (hcontra ▸ this) (lt_irrefl h)
      simp only [get, if_neg hk]
      exact ih (List.pairwise_cons.mp hl).2 htl

theorem mem_of_get_pos {l : List (H × Nat)} {h : H}
    (hp : 0 < get l h) : (h, get l h) ∈ l := by
  induction l with
  | nil => simp [get] at hp
  | cons p t ih =>
    obtain ⟨k, n⟩ := p
    by_cases hk : h = k
    · subst hk
      simp [get] at hp ⊢
    · simp only [get, if_neg hk] at hp ⊢
      exact List.mem_cons_of_mem _ (ih hp)

theorem get_head {k : H} {n : Nat} {t : List (H × Nat)} :
    get ((k, n) :: t) k = n := by simp [get]

/-- Strictly key-sorted association lists with the same key sequence and the
same counter at every key are equal. -/
theorem ext_of_keys_eq {a b : List (H × Nat)}
    (ha : a.Pairwise (fun p q => p.1 < q.1))
    (hkeys : a.map Prod.fst = b.map Prod.fst)
    (hget : ∀ k ∈ a.map Prod.fst, get a k = get b k) : a = b := by
  induction a generalizing b with
  | nil =>
    cases b with
    | nil => rfl
    | cons q t2 => simp at hkeys
  | cons p t ih =>
    obtain ⟨k, n⟩ := p
    cases b with
    | nil => simp at hkeys
    | cons q t2 =>
      obtain ⟨k2, n2⟩ := q
      simp only [List.map_cons, List.cons.injEq] at hkeys
      obtain ⟨hk, hkt⟩ := hkeys
      subst hk
      have hv : n = n2 := by
        have := hget k (by simp)
        rwa [get_head, get_head] at this
      subst hv
      have htails : t = t2 := by
        refine ih (List.pairwise_cons.mp ha).2 hkt ?_
        intro k' hk'
        have hne : k' ≠ k := by
          intro hcontra
          have := (List.pairwise_cons.mp ha).1
          obtain ⟨m, hm⟩ := List.mem_map.mp hk'
          have := this m hm.1
          rw [hm.2, hcontra] at this
          exact absurd this (lt_irrefl k)
        have := hget k' (by simp [hk'])
        simpa [get, if_neg hne] using this
      rw [htails]

/-- Strictly key-sorted association lists with positive counters are equal as
soon as they are pointwise equal (missing keys reading as zero). -/
theorem ext_of_pointwise {a b : List (H × Nat)}
    (ha : a.Pairwise (fun p q => p.1 < q.1))
    (hb : b.Pairwise (fun p q => p.1 < q.1))
    (za : ∀ p ∈ a, 0 < p.2) (zb : ∀ p ∈ b, 0 < p.2)
    (hget : ∀ h, get a h = get b h) : a = b := by
  induction a generalizing b with
  | nil =>
    cases b with
    | nil => rfl
    | cons q t2 =>
      obtain ⟨k2, n2⟩ := q
      have h1 : get ([] : List (H × Nat)) k2 = 0 := rfl
      have h2 : get ((k2, n2) :: t2) k2 = n2 := get_head
      have := hget k2
      rw [h1, h2] at this
      exact absurd this.symm (Nat.ne_of_gt (zb (k2, n2) (by simp)))
  | cons p t ih =>
    obtain ⟨k, n⟩ := p
    cases b with
    | nil =>
      have h1 : get ((k, n) :: t) k = n := get_head
      have := hget k
      rw [h1] at this
      exact absurd this (Nat.ne_of_gt (za (k, n) (by simp)))
    | cons q t2 =>
      obtain ⟨k2, n2⟩ := q
      have hk : k = k2 := by
        rcases lt_trichotomy k k2 with hlt | heq | hgt
        · exfalso
          have hzero : get ((k2, n2) :: t2) k = 0 := by
            refine get_eq_zero_of_not_mem ?_
            intro p hp
            rcases List.mem_cons.mp hp with rfl | hp2
            · exact ne_of_lt hlt
            · have := (List.pairwise_cons.mp hb).1 p hp2
              exact ne_of_lt (lt_trans hlt this)
          have := hget k
          rw [get_head, hzero] at this
          exact absurd this (Nat.ne_of_gt (za (k, n) (by simp)))
        · exact heq
        · exfalso
          have hzero : get ((k, n) :: t) k2 = 0 := by
            refine get_eq_zero_of_not_mem ?_
            intro p hp
            rcases List.mem_cons.mp hp with rfl | hp2
            · exact ne_of_lt hgt
            · have := (List.pairwise_cons.mp ha).1 p hp2
              exact ne_of_lt (lt_trans hgt this)
          have := hget k2
          rw [hzero, get_head] at this
          exact absurd this.symm (Nat.ne_of_gt (zb (k2, n2) (by simp)))
      subst hk
      have hv : n = n2 := by
        have := hget k
        rwa [get_head, get_head] at this
      subst hv
      have htails : t = t2 := by
        refine ih (List.pairwise_cons.mp ha).2 (List.pairwise_cons.mp hb).2
          (fun p hp => za p (List.mem_cons_of_mem _ hp))
          (fun p hp => zb p (List.mem_cons_of_mem _ hp)) ?_
        intro h
        by_cases hh : h = k
        · subst hh
          have h1 : get t h = 0 := by
            refine get_eq_zero_of_not_mem ?_
            intro p hp
            exact ne_of_lt ((List.pairwise_cons.mp ha).1 p hp)
          have h2 : get t2 h = 0 := by
            refine get_eq_zero_of_not_mem ?_
            intro p hp
            exact ne_of_lt ((List.pairwise_cons.mp hb).1 p hp)
          rw [h1, h2]
        · have := hget h
          simpa [get, if_neg hh] using this
      rw [htails]

end VectorClock

namespace VectorClock

variable {H : Type} [LinearOrder H]

/-- The specification of `superseded_by`: pointwise no greater, strictly
smaller somewhere (missing keys reading as zero). -/
theorem superseded_by_iff {a b : VectorClock H} (ha : a.WF) (hb : b.WF) :
    a.superseded_by b = true ↔
      (∀ h, a.count h ≤ b.count h) ∧ ∃ h, a.count h < b.count h := by
  simp only [superseded_by, count, Bool.and_eq_true, Bool.or_eq_true,
    List.all_eq_true, List.any_eq_true, decide_eq_true_eq]
  constructor
  · rintro ⟨⟨h1, h2⟩, h3⟩
    constructor
    · intro h
      rcases Nat.eq_zero_or_pos (get a.entries h) with hz | hp
      · rw [hz]; exact Nat.zero_le _
      · have hm := mem_of_get_pos hp
        exact h1 (h, get a.entries h) hm
    · rcases h3 with ⟨p, hp, hlt⟩ | ⟨p, hp, hlt⟩
      · exact ⟨p.1, by rw [get_eq_of_mem ha hp]; exact hlt⟩
      · exact ⟨p.1, by rw [get_eq_of_mem hb hp]; exact hlt⟩
  · rintro ⟨hle, h0, hstrict⟩
    refine ⟨⟨?_, ?_⟩, ?_⟩
    · intro p hp
      obtain ⟨k, n⟩ := p
      have := hle k
      rwa [get_eq_of_mem ha hp] at this
    · intro p hp
      obtain ⟨k, n⟩ := p
      have := hle k
      rwa [get_eq_of_mem hb hp] at this
    · right
      have hpos : 0 < get b.entries h0 := Nat.lt_of_le_of_lt (Nat.zero_le _) hstrict
      exact ⟨(h0, get b.entries h0), mem_of_get_pos hpos, hstrict⟩

/-- A clock cannot be superseded by another in both directions. -/
theorem superseded_by_asymm {a b : VectorClock H} (ha : a.WF) (hb : b.WF)
    (h1 : a.superseded_by b = true) (h2 : b.superseded_by a = true) : False := by
  obtain ⟨hle, _⟩ := (superseded_by_iff ha hb).mp h1
  obtain ⟨_, h0, hlt⟩ := (superseded_by_iff hb ha).mp h2
  exact absurd (hle h0) (not_le_of_lt hlt)

/-- `superseded_by` forces structural inequality. -/
theorem ne_of_superseded_by {a b : VectorClock H} (ha : a.WF) (hb : b.WF)
    (h : a.superseded_by b = true) : a ≠ b := by
  obtain ⟨_, h0, hlt⟩ := (superseded_by_iff ha hb).mp h
  intro hcontra
  rw [hcontra] at hlt
  exact lt_irrefl _ hlt

theorem cmpKeys_eq_iff {x y : List H} : cmpKeys x y = .eq ↔ x = y := by
  induction x generalizing y with
  | nil => cases y <;> simp [cmpKeys]
  | cons a as_ ih =>
    cases y with
    | nil => simp [cmpKeys]
    | cons b bs =>
      simp only [cmpKeys]
      by_cases hab : a < b
      · simp [if_pos hab, ne_of_lt hab]
      · by_cases hba : b < a
        · simp [if_neg hab, if_pos hba, (ne_of_lt hba).symm]
        · have heq : a = b := le_antisymm (not_lt.mp hba) (not_lt.mp hab)
          simp [if_neg hab, if_neg hba, heq, ih]

theorem cmpKeys_swap_lt {x y : List H} : cmpKeys x y = .lt ↔ cmpKeys y x = .gt := by
  induction x generalizing y with
  | nil => cases y <;> simp [cmpKeys]
  | cons a as_ ih =>
    cases y with
    | nil => simp [cmpKeys]
    | cons b bs =>
      simp only [cmpKeys]
      by_cases hab : a < b
      · have : ¬ b < a := not_lt.mpr (le_of_lt hab)
        simp [if_pos hab, if_neg this]
      · by_cases hba : b < a
        · simp [if_neg hab, if_pos hba]
        · simp [if_neg hab, if_neg hba, ih]

end VectorClock

namespace VectorClock

variable {H : Type} [LinearOrder H]

/-- The counter walk is the first key (in walk order) whose counters differ,
mapped to the direction of the difference. -/
theorem resolveCounters_eq_find (a b : VectorClock H) (ks : List H) :
    resolveCounters a b ks =
      (ks.find? fun k => decide (get a.entries k ≠ get b.entries k)).map
        fun k => decide (get b.entries k < get a.entries k) := by
  induction ks with
  | nil => rfl
  | cons k ks ih =>
    simp only [resolveCounters]
    by_cases hk : get a.entries k = get b.entries k
    · rw [if_pos hk, List.find?_cons_of_neg _ (by simp [hk]), ih]
    · rw [if_neg hk, List.find?_cons_of_pos _ (by simp [hk]), Option.map_some']
      by_cases hgt : get a.entries k > get b.entries k
      · rw [if_pos hgt]
        simp [hgt]
      · rw [if_neg hgt]
        have hn : ¬ get b.entries k < get a.entries k := hgt
        simp [hn]

/-- If the tie-break falls through to the panic, the two clocks were in fact
structurally equal. -/
theorem eq_of_is_greater_concurrent_than_none {a b : VectorClock H} (ha : a.WF)
    (h : a.is_greater_concurrent_than b = none) : a = b := by
  by_cases h1 : (keys a).length > (keys b).length
  · simp [is_greater_concurrent_than, h1] at h
  by_cases h2 : (keys b).length > (keys a).length
  · simp [is_greater_concurrent_than, h1, h2] at h
  rcases hc : cmpKeys (keys a) (keys b) with _ | _ | _
  · simp [is_greater_concurrent_than, h1, h2, hc] at h
  · have hres : resolveCounters a b (keys a) = none := by
      simpa [is_greater_concurrent_than, h1, h2, hc] using h
    have hkeys : keys a = keys b := cmpKeys_eq_iff.mp hc
    rw [resolveCounters_eq_find, Option.map_eq_none'] at hres
    rw [List.find?_eq_none] at hres
    have hget : ∀ k ∈ (keys a), get a.entries k = get b.entries k := by
      intro k hk
      have := hres k hk
      simpa using this
    have : a.entries = b.entries :=
      ext_of_keys_eq ha hkeys (fun k hk => hget k hk)
    cases a; cases b
    simpa using this
  · simp [is_greater_concurrent_than, h1, h2, hc] at h

/-- Antisymmetry of the deterministic tie-break on distinct WF clocks. -/
theorem is_greater_concurrent_than_antisymm {a b : VectorClock H}
    (ha : a.WF) (hb : b.WF) (hne : a ≠ b) :
    (a.is_greater_concurrent_than b = some true ↔
     b.is_greater_concurrent_than a = some false) := by
  rcases lt_trichotomy (keys a).length (keys b).length with hl | hl | hl
  · have g1 : a.is_greater_concurrent_than b = some false := by
      unfold is_greater_concurrent_than
      rw [if_neg (by omega), if_pos (by omega)]
    have g2 : b.is_greater_concurrent_than a = some true := by
      unfold is_greater_concurrent_than
      rw [if_pos (by omega)]
    rw [g1, g2]
    simp
  · by_cases h1 : (keys a).length > (keys b).length
    · omega
    by_cases h2 : (keys b).length > (keys a).length
    · omega
    rcases hc : cmpKeys (keys a) (keys b) with _ | _ | _
    · have g1 : a.is_greater_concurrent_than b = some false := by
        simp [is_greater_concurrent_than, h1, h2, hc]
      have g2 : b.is_greater_concurrent_than a = some true := by
        simp [is_greater_concurrent_than, h1, h2, cmpKeys_swap_lt.mp hc]
      rw [g1, g2]
      simp
    · have hkeys : keys a = keys b := cmpKeys_eq_iff.mp hc
      have hc2 : cmpKeys (keys b) (keys a) = .eq := cmpKeys_eq_iff.mpr hkeys.symm
      have g1 : a.is_greater_concurrent_than b = resolveCounters a b (keys a) := by
        simp [is_greater_concurrent_than, h1, h2, hc]
      have g2 : b.is_greater_concurrent_than a = resolveCounters b a (keys a) := by
        simp only [is_greater_concurrent_than]
        rw [if_neg h2, if_neg h1, hc2, hkeys]
      rw [g1, g2, resolveCounters_eq_find, resolveCounters_eq_find]
      have hpred : (fun k => decide (get b.entries k ≠ get a.entries k)) =
          (fun k => decide (get a.entries k ≠ get b.entries k)) := by
        funext k
        simp [ne_comm]
      rw [hpred]
      cases hF : (keys a).find? (fun k => decide (get a.entries k ≠ get b.entries k)) with
      | none =>
        exfalso
        rw [List.find?_eq_none] at hF
        have hget : ∀ k ∈ (keys a), get a.entries k = get b.entries k := by
          intro k hk
          have := hF k hk
          simpa using this
        have : a.entries = b.entries := ext_of_keys_eq ha hkeys hget
        apply hne
        cases a; cases b
        simpa using this
      | some k =>
        have hkne : get a.entries k ≠ get b.entries k := by
          have := List.find?_some hF
          simpa using this
        simp only [Option.map_some', Option.some.injEq, decide_eq_true_eq,
          decide_eq_false_iff_not]
        omega
    · have g1 : a.is_greater_concurrent_than b = some true := by
        simp [is_greater_concurrent_than, h1, h2, hc]
      have g2 : b.is_greater_concurrent_than a = some false := by
        simp [is_greater_concurrent_than, h1, h2, cmpKeys_swap_lt.mpr hc]
      rw [g1, g2]
      simp
  · have g1 : a.is_greater_concurrent_than b = some true := by
      unfold is_greater_concurrent_than
      rw [if_pos (by omega)]
    have g2 : b.is_greater_concurrent_than a = some false := by
      unfold is_greater_concurrent_than
      rw [if_neg (by omega), if_pos (by omega)]
    rw [g1, g2]
    simp

/-- In the concurrent branch `temporal_relation` is decided by the
tie-break. -/
theorem temporal_relation_concurrent {a b : VectorClock H}
    (hne : a ≠ b) (hab : a.superseded_by b = false) (hba : b.superseded_by a = false) :
    a.temporal_relation b =
      match a.is_greater_concurrent_than b with
      | some true => some .ConcurrentGreater
      | some false => some .ConcurrentSmaller
      | none => none := by
  simp [temporal_relation, hne, hab, hba]

end VectorClock

namespace VectorClock

variable {H : Type} [LinearOrder H]

theorem mergeEntries_comm (a b : List (H × Nat)) :
    mergeEntries a b = mergeEntries b a := by
  induction a, b using mergeEntries.induct with
  | case1 b => cases b <;> simp [mergeEntries]
  | case2 p t => simp [mergeEntries]
  | case3 h1 n1 t1 h2 n2 t2 hlt ih =>
    have hnlt : ¬ h2 < h1 := not_lt.mpr (le_of_lt hlt)
    simp only [mergeEntries, if_pos hlt, if_neg hnlt, ih]
  | case4 h1 n1 t1 h2 n2 t2 hnlt hlt ih =>
    simp only [mergeEntries, if_pos hlt, if_neg hnlt, ih]
  | case5 h1 n1 t1 h2 n2 t2 hnlt hnlt2 ih =>
    have heq : h1 = h2 := le_antisymm (not_lt.mp hnlt2) (not_lt.mp hnlt)
    simp only [mergeEntries, if_neg hnlt, if_neg hnlt2, ih]
    rw [heq, Nat.max_comm]

theorem mergeEntries_self (a : List (H × Nat)) : mergeEntries a a = a := by
  induction a with
  | nil => simp [mergeEntries]
  | cons p t ih =>
    obtain ⟨k, n⟩ := p
    simp [mergeEntries, lt_irrefl, ih]

theorem keys_mem_mergeEntries : ∀ (a b : List (H × Nat)) (p : H × Nat),
    p ∈ mergeEntries a b → p.1 ∈ a.map Prod.fst ∨ p.1 ∈ b.map Prod.fst := by
  intro a b
  induction a, b using mergeEntries.induct with
  | case1 b =>
    intro p hp
    right
    rw [show mergeEntries [] b = b by simp [mergeEntries]] at hp
    exact List.mem_map_of_mem _ hp
  | case2 q t =>
    intro p hp
    left
    rw [show mergeEntries (q :: t) [] = q :: t by simp [mergeEntries]] at hp
    exact List.mem_map_of_mem _ hp
  | case3 h1 n1 t1 h2 n2 t2 hlt ih =>
    intro p hp
    rw [show mergeEntries ((h1, n1) :: t1) ((h2, n2) :: t2) =
        (h1, n1) :: mergeEntries t1 ((h2, n2) :: t2) by
      simp [mergeEntries, hlt]] at hp
    rcases List.mem_cons.mp hp with rfl | hp2
    · left; simp
    · rcases ih p hp2 with h | h
      · left; simp only [List.map_cons]; exact List.mem_cons_of_mem _ h
      · right; exact h
  | case4 h1 n1 t1 h2 n2 t2 hnlt hlt ih =>
    intro p hp
    rw [show mergeEntries ((h1, n1) :: t1) ((h2, n2) :: t2) =
        (h2, n2) :: mergeEntries ((h1, n1) :: t1) t2 by
      simp [mergeEntries, hnlt, hlt]] at hp
    rcases List.mem_cons.mp hp with rfl | hp2
    · right; simp
    · rcases ih p hp2 with h | h
      · left; exact h
      · right; simp only [List.map_cons]; exact List.mem_cons_of_mem _ h
  | case5 h1 n1 t1 h2 n2 t2 hnlt hnlt2 ih =>
    intro p hp
    rw [show mergeEntries ((h1, n1) :: t1) ((h2, n2) :: t2) =
        (h1, max n1 n2) :: mergeEntries t1 t2 by
      simp [mergeEntries, hnlt, hnlt2]] at hp
    rcases List.mem_cons.mp hp with rfl | hp2
    · left; simp
    · rcases ih p hp2 with h | h
      · left; simp only [List.map_cons]; exact List.mem_cons_of_mem _ h
      · right; simp only [List.map_cons]; exact List.mem_cons_of_mem _ h

theorem pairwise_mergeEntries : ∀ (a b : List (H × Nat)),
    a.Pairwise (fun p q => p.1 < q.1) → b.Pairwise (fun p q => p.1 < q.1) →
    (mergeEntries a b).Pairwise (fun p q => p.1 < q.1) := by
  intro a b
  induction a, b using mergeEntries.induct with
  | case1 b => intro _ hb; simpa [mergeEntries] using hb
  | case2 q t => intro ha _; simpa [mergeEntries] using ha
  | case3 h1 n1 t1 h2 n2 t2 hlt ih =>
    intro ha hb
    rw [show mergeEntries ((h1, n1) :: t1) ((h2, n2) :: t2) =
        (h1, n1) :: mergeEntries t1 ((h2, n2) :: t2) by
      simp [mergeEntries, hlt]]
    refine List.pairwise_cons.mpr ⟨?_, ih (List.pairwise_cons.mp ha).2 hb⟩
    intro q hq
    rcases keys_mem_mergeEntries _ _ q hq with h | h
    · obtain ⟨p, hp, hfst⟩ := List.mem_map.mp h
      rw [← hfst]
      exact (List.pairwise_cons.mp ha).1 p hp
    · simp only [List.map_cons, List.mem_cons] at h
      rcases h with h | h
      · rw [← h] at hlt; exact hlt
      · obtain ⟨p, hp, hfst⟩ := List.mem_map.mp h
        rw [← hfst]
        exact lt_trans hlt ((List.pairwise_cons.mp hb).1 p hp)
  | case4 h1 n1 t1 h2 n2 t2 hnlt hlt ih =>
    intro ha hb
    rw [show mergeEntries ((h1, n1) :: t1) ((h2, n2) :: t2) =
        (h2, n2) :: mergeEntries ((h1, n1) :: t1) t2 by
      simp [mergeEntries, hnlt, hlt]]
    refine List.pairwise_cons.mpr ⟨?_, ih ha (List.pairwise_cons.mp hb).2⟩
    intro q hq
    rcases keys_mem_mergeEntries _ _ q hq with h | h
    · simp only [List.map_cons, List.mem_cons] at h
      rcases h with h | h
      · rw [← h] at hlt; exact hlt
      · obtain ⟨p, hp, hfst⟩ := List.mem_map.mp h
        rw [← hfst]
        exact lt_trans hlt ((List.pairwise_cons.mp ha).1 p hp)
    · obtain ⟨p, hp, hfst⟩ := List.mem_map.mp h
      rw [← hfst]
      exact (List.pairwise_cons.mp hb).1 p hp
  | case5 h1 n1 t1 h2 n2 t2 hnlt hnlt2 ih =>
    intro ha hb
    have heq : h1 = h2 := le_antisymm (not_lt.mp hnlt2) (not_lt.mp hnlt)
    rw [show mergeEntries ((h1, n1) :: t1) ((h2, n2) :: t2) =
        (h1, max n1 n2) :: mergeEntries t1 t2 by
      simp [mergeEntries, hnlt, hnlt2]]
    refine List.pairwise_cons.mpr
      ⟨?_, ih (List.pairwise_cons.mp ha).2 (List.pairwise_cons.mp hb).2⟩
    intro q hq
    rcases keys_mem_mergeEntries _ _ q hq with h | h
    · obtain ⟨p, hp, hfst⟩ := List.mem_map.mp h
      rw [← hfst]
      exact (List.pairwise_cons.mp ha).1 p hp
    · obtain ⟨p, hp, hfst⟩ := List.mem_map.mp h
      rw [← hfst]
      rw [heq]
      exact (List.pairwise_cons.mp hb).1 p hp

theorem pos_mergeEntries : ∀ (a b : List (H × Nat)),
    (∀ p ∈ a, 0 < p.2) → (∀ p ∈ b, 0 < p.2) →
    ∀ p ∈ mergeEntries a b, 0 < p.2 := by
  intro a b
  induction a, b using mergeEntries.induct with
  | case1 b => intro _ zb; simpa [mergeEntries] using zb
  | case2 q t => intro za _; simpa [mergeEntries] using za
  | case3 h1 n1 t1 h2 n2 t2 hlt ih =>
    intro za zb p hp
    rw [show mergeEntries ((h1, n1) :: t1) ((h2, n2) :: t2) =
        (h1, n1) :: mergeEntries t1 ((h2, n2) :: t2) by
      simp [mergeEntries, hlt]] at hp
    rcases List.mem_cons.mp hp with rfl | hp2
    · exact za (h1, n1) (by simp)
    · exact ih (fun p hp => za p (List.mem_cons_of_mem _ hp)) zb p hp2
  | case4 h1 n1 t1 h2 n2 t2 hnlt hlt ih =>
    intro za zb p hp
    rw [show mergeEntries ((h1, n1) :: t1) ((h2, n2) :: t2) =
        (h2, n2) :: mergeEntries ((h1, n1) :: t1) t2 by
      simp [mergeEntries, hnlt, hlt]] at hp
    rcases List.mem_cons.mp hp with rfl | hp2
    · exact zb (h2, n2) (by simp)
    · exact ih za (fun p hp => zb p (List.mem_cons_of_mem _ hp)) p hp2
  | case5 h1 n1 t1 h2 n2 t2 hnlt hnlt2 ih =>
    intro za zb p hp
    rw [show mergeEntries ((h1, n1) :: t1) ((h2, n2) :: t2) =
        (h1, max n1 n2) :: mergeEntries t1 t2 by
      simp [mergeEntries, hnlt, hnlt2]] at hp
    rcases List.mem_cons.mp hp with rfl | hp2
    · have := za (h1, n1) (by simp)
      exact lt_of_lt_of_le this (le_max_left _ _)
    · exact ih (fun p hp => za p (List.mem_cons_of_mem _ hp))
        (fun p hp => zb p (List.mem_cons_of_mem _ hp)) p hp2

theorem get_mergeEntries : ∀ (a b : List (H × Nat)),
    a.Pairwise (fun p q => p.1 < q.1) → b.Pairwise (fun p q => p.1 < q.1) →
    ∀ h, get (mergeEntries a b) h = max (get a h) (get b h) := by
  intro a b
  induction a, b using mergeEntries.induct with
  | case1 b => intro _ _ h; simp [mergeEntries, get]
  | case2 q t => intro _ _ h; simp [mergeEntries, get]
  | case3 h1 n1 t1 h2 n2 t2 hlt ih =>
    intro ha hb h
    rw [show mergeEntries ((h1, n1) :: t1) ((h2, n2) :: t2) =
        (h1, n1) :: mergeEntries t1 ((h2, n2) :: t2) by
      simp [mergeEntries, hlt]]
    by_cases hh : h = h1
    · subst hh
      have hz : get ((h2, n2) :: t2) h = 0 := by
        refine get_eq_zero_of_not_mem ?_
        intro p hp
        rcases List.mem_cons.mp hp with rfl | hp2
        · exact ne_of_lt hlt
        · exact ne_of_lt (lt_trans hlt ((List.pairwise_cons.mp hb).1 p hp2))
      rw [get_head, get_head, hz]
      simp
    · simp only [get, if_neg hh]
      exact ih (List.pairwise_cons.mp ha).2 hb h
  | case4 h1 n1 t1 h2 n2 t2 hnlt hlt ih =>
    intro ha hb h
    rw [show mergeEntries ((h1, n1) :: t1) ((h2, n2) :: t2) =
        (h2, n2) :: mergeEntries ((h1, n1) :: t1) t2 by
      simp [mergeEntries, hnlt, hlt]]
    by_cases hh : h = h2
    · subst hh
      have hz : get ((h1, n1) :: t1) h = 0 := by
        refine get_eq_zero_of_not_mem ?_
        intro p hp
        rcases List.mem_cons.mp hp with rfl | hp2
        · exact ne_of_lt hlt
        · exact ne_of_lt (lt_trans hlt ((List.pairwise_cons.mp ha).1 p hp2))
      rw [get_head, hz, get_head]
      simp
    · simp only [get, if_neg hh]
      exact ih ha (List.pairwise_cons.mp hb).2 h
  | case5 h1 n1 t1 h2 n2 t2 hnlt hnlt2 ih =>
    intro ha hb h
    have heq : h1 = h2 := le_antisymm (not_lt.mp hnlt2) (not_lt.mp hnlt)
    subst heq
    rw [show mergeEntries ((h1, n1) :: t1) ((h1, n2) :: t2) =
        (h1, max n1 n2) :: mergeEntries t1 t2 by
      simp [mergeEntries, hnlt, hnlt2]]
    by_cases hh : h = h1
    · subst hh
      rw [get_head, get_head, get_head]
    · simp only [get, if_neg hh]
      exact ih (List.pairwise_cons.mp ha).2 (List.pairwise_cons.mp hb).2 h

end VectorClock

namespace VectorClock

variable {H : Type} [LinearOrder H]

theorem keys_mem_bump : ∀ (l : List (H × Nat)) (h : H) (p : H × Nat),
    p ∈ bump l h → p.1 = h ∨ p.1 ∈ l.map Prod.fst := by
  intro l h
  induction l with
  | nil =>
    intro p hp
    simp [bump] at hp
    left
    rw [hp]
  | cons q t ih =>
    obtain ⟨k, n⟩ := q
    intro p hp
    simp only [bump] at hp
    by_cases h1 : h < k
    · rw [if_pos h1] at hp
      rcases List.mem_cons.mp hp with rfl | hp2
      · left; rfl
      · right; exact List.mem_map_of_mem _ hp2
    · rw [if_neg h1] at hp
      by_cases h2 : k < h
      · rw [if_pos h2] at hp
        rcases List.mem_cons.mp hp with rfl | hp2
        · right; simp
        · rcases ih p hp2 with h3 | h3
          · left; exact h3
          · right; simp only [List.map_cons]; exact List.mem_cons_of_mem _ h3
      · rw [if_neg h2] at hp
        rcases List.mem_cons.mp hp with rfl | hp2
        · right; simp
        · right; simp only [List.map_cons]; exact List.mem_cons_of_mem _ (List.mem_map_of_mem _ hp2)

theorem pairwise_bump : ∀ (l : List (H × Nat)) (h : H),
    l.Pairwise (fun p q => p.1 < q.1) → (bump l h).Pairwise (fun p q => p.1 < q.1) := by
  intro l h
  induction l with
  | nil => intro _; simp [bump]
  | cons q t ih =>
    obtain ⟨k, n⟩ := q
    intro hl
    simp only [bump]
    by_cases h1 : h < k
    · rw [if_pos h1]
      refine List.pairwise_cons.mpr ⟨?_, hl⟩
      intro p hp
      rcases List.mem_cons.mp hp with rfl | hp2
      · exact h1
      · exact lt_trans h1 ((List.pairwise_cons.mp hl).1 p hp2)
    · rw [if_neg h1]
      by_cases h2 : k < h
      · rw [if_pos h2]
        refine List.pairwise_cons.mpr ⟨?_, ih (List.pairwise_cons.mp hl).2⟩
        intro p hp
        rcases keys_mem_bump t h p hp with h3 | h3
        · rw [h3]; exact h2
        · obtain ⟨q, hq, hfst⟩ := List.mem_map.mp h3
          rw [← hfst]
          exact (List.pairwise_cons.mp hl).1 q hq
      · rw [if_neg h2]
        exact List.pairwise_cons.mpr ⟨(List.pairwise_cons.mp hl).1, (List.pairwise_cons.mp hl).2⟩

theorem pos_bump : ∀ (l : List (H × Nat)) (h : H),
    (∀ p ∈ l, 0 < p.2) → ∀ p ∈ bump l h, 0 < p.2 := by
  intro l h
  induction l with
  | nil =>
    intro _ p hp
    simp [bump] at hp
    rw [hp]
    exact Nat.one_pos
  | cons q t ih =>
    obtain ⟨k, n⟩ := q
    intro hz p hp
    simp only [bump] at hp
    by_cases h1 : h < k
    · rw [if_pos h1] at hp
      rcases List.mem_cons.mp hp with rfl | hp2
      · exact Nat.one_pos
      · exact hz p hp2
    · rw [if_neg h1] at hp
      by_cases h2 : k < h
      · rw [if_pos h2] at hp
        rcases List.mem_cons.mp hp with rfl | hp2
        · exact hz (k, n) (by simp)
        · exact ih (fun p hp => hz p (List.mem_cons_of_mem _ hp)) p hp2
      · rw [if_neg h2] at hp
        rcases List.mem_cons.mp hp with rfl | hp2
        · exact Nat.succ_pos n
        · exact hz p (List.mem_cons_of_mem _ hp2)

/-- Every clock built by the source API is canonically represented. -/
theorem reachable_wf {c : VectorClock H} (hr : Reachable c) : c.WF := by
  induction hr with
  | new => exact List.Pairwise.nil
  | incr c h _ ih => exact pairwise_bump _ _ ih
  | incr_clone c h _ ih => exact pairwise_bump _ _ ih
  | merge_with a b _ _ iha ihb => exact pairwise_mergeEntries _ _ iha ihb

/-- Every clock built by the source API stores only positive counters. -/
theorem reachable_noZeros {c : VectorClock H} (hr : Reachable c) : c.NoZeros := by
  induction hr with
  | new => intro p hp; cases hp
  | incr c h _ ih => exact pos_bump _ _ ih
  | incr_clone c h _ ih => exact pos_bump _ _ ih
  | merge_with a b _ _ iha ihb => exact pos_mergeEntries _ _ iha ihb

/-- On canonical clocks without explicit zeros, structural equality is
pointwise equality of counters. -/
theorem eq_iff_pointwise {a b : VectorClock H} (ha : a.WF) (hb : b.WF)
    (za : a.NoZeros) (zb : b.NoZeros) :
    a = b ↔ ∀ h, a.count h = b.count h := by
  constructor
  · rintro rfl _; rfl
  · intro hget
    have : a.entries = b.entries := ext_of_pointwise ha hb za zb hget
    cases a; cases b
    simpa using this

/-- If `x` is pointwise below `m`, then `temporal_relation x m` is `Equal` or
`Caused` (on canonical, zero-free clocks). -/
theorem temporal_relation_of_pointwise_le {x m : VectorClock H}
    (hx : x.WF) (hm : m.WF) (zx : x.NoZeros) (zm : m.NoZeros)
    (hle : ∀ h, x.count h ≤ m.count h) :
    x.temporal_relation m = some .Equal ∨ x.temporal_relation m = some .Caused := by
  by_cases heq : x = m
  · left
    simp [temporal_relation, heq]
  · right
    have hstrict : ∃ h, x.count h < m.count h := by
      by_contra hcontra
      push_neg at hcontra
      exact heq ((eq_iff_pointwise hx hm zx zm).mpr
        fun h => le_antisymm (hle h) (hcontra h))
    have hsb : x.superseded_by m = true :=
      (superseded_by_iff hx hm).mpr ⟨hle, hstrict⟩
    simp [temporal_relation, heq, hsb]

end VectorClock

namespace VectorClock

variable {H : Type} [LinearOrder H]

theorem temporal_relation_eq_equal_iff {a b : VectorClock H} :
    a.temporal_relation b = some .Equal ↔ a = b := by
  constructor
  · intro h
    by_contra hne
    rw [temporal_relation, if_neg hne] at h
    by_cases h1 : a.superseded_by b = true
    · rw [if_pos h1] at h
      simp at h
    · rw [if_neg h1] at h
      by_cases h2 : b.superseded_by a = true
      · rw [if_pos h2] at h
        simp at h
      · rw [if_neg h2] at h
        rcases hg : a.is_greater_concurrent_than b with _ | _ | _ <;>
          simp [hg] at h
  · rintro rfl
    simp [temporal_relation]

theorem temporal_relation_eq_caused_iff {a b : VectorClock H}
    (ha : a.WF) (hb : b.WF) :
    a.temporal_relation b = some .Caused ↔ a.superseded_by b = true := by
  constructor
  · intro h
    by_cases hne : a = b
    · rw [temporal_relation, if_pos hne] at h
      simp at h
    · rw [temporal_relation, if_neg hne] at h
      by_cases h1 : a.superseded_by b = true
      · exact h1
      · exfalso
        rw [if_neg h1] at h
        by_cases h2 : b.superseded_by a = true
        · rw [if_pos h2] at h
          simp at h
        · rw [if_neg h2] at h
          rcases hg : a.is_greater_concurrent_than b with _ | _ | _ <;>
            simp [hg] at h
  · intro hsb
    rw [temporal_relation, if_neg (ne_of_superseded_by ha hb hsb), if_pos hsb]

theorem temporal_relation_eq_effectof_iff {a b : VectorClock H}
    (ha : a.WF) (hb : b.WF) :
    a.temporal_relation b = some .EffectOf ↔ b.superseded_by a = true := by
  constructor
  · intro h
    by_cases hne : a = b
    · rw [temporal_relation, if_pos hne] at h
      simp at h
    · rw [temporal_relation, if_neg hne] at h
      by_cases h1 : a.superseded_by b = true
      · rw [if_pos h1] at h
        simp at h
      · rw [if_neg h1] at h
        by_cases h2 : b.superseded_by a = true
        · exact h2
        · exfalso
          rw [if_neg h2] at h
          rcases hg : a.is_greater_concurrent_than b with _ | _ | _ <;>
            simp [hg] at h
  · intro hsb
    have hne : a ≠ b := (ne_of_superseded_by hb ha hsb).symm
    have h1 : a.superseded_by b = false := by
      cases h1 : a.superseded_by b with
      | false => rfl
      | true => exact absurd (superseded_by_asymm ha hb h1 hsb) not_false
    rw [temporal_relation, if_neg hne, h1, if_neg (by simp), if_pos hsb]

end VectorClock

/-! ### Claims -/

open VectorClock


/-- C9: for every pair of (canonically represented) vector clocks, the
failure branch of the concurrent tie-break — the
`panic!("unable to resolve concurrent clocks")`, reached only when the sorted
key sequences are identical and every counter is equal — is unreachable from
`temporal_relation`: two clocks with identical keys and counters are
structurally equal, so `temporal_relation` returns `Equal` before the
tie-break runs.  In the embedding the panic is the `none` result. -/
theorem spec_C9_panic_unreachable {H : Type} [LinearOrder H]
    (a b : VectorClock H) (ha : a.WF) (hb : b.WF) :
    a.temporal_relation b ≠ none := by
  intro h
  rw [temporal_relation] at h
  by_cases hne : a = b
  · rw [if_pos hne] at h
    simp at h
  · rw [if_neg hne] at h
    by_cases h1 : a.superseded_by b = true
    · rw [if_pos h1] at h
      simp at h
    · rw [if_neg h1] at h
      by_cases h2 : b.superseded_by a = true
      · rw [if_pos h2] at h
        simp at h
      · rw [if_neg h2] at h
        rcases hg : a.is_greater_concurrent_than b with _ | _ | _
        · exact hne (eq_of_is_greater_concurrent_than_none ha hg)
        · simp [hg] at h
        · simp [hg] at h

/-- Witness for C9 at the diverged pair A:1 vs B:1. -/
theorem spec_C9_panic_unreachable_witness :
    clockA.WF ∧ clockB.WF ∧ clockA.temporal_relation clockB ≠ none :=
  ⟨by decide, by decide,
   spec_C9_panic_unreachable clockA clockB (by decide) (by decide)⟩

/-- C10: every VectorClock reachable through `new`, `incr`, `incr_clone`,
and `merge_with` stores only counters at least 1, so the structural map
equality `temporal_relation` uses to detect `Equal` coincides with pointwise
equality in which a missing key counts as zero. -/
theorem spec_C10_reachable_no_zeros {H : Type} [LinearOrder H]
    (a b : VectorClock H) (hra : Reachable a) (hrb : Reachable b) :
    a.NoZeros ∧ (a = b ↔ ∀ h, a.count h = b.count h) :=
  ⟨reachable_noZeros hra,
   eq_iff_pointwise (reachable_wf hra) (reachable_wf hrb)
     (reachable_noZeros hra) (reachable_noZeros hrb)⟩

/-- Witness for C10 at `new().incr(0)` and `new().incr_clone(0)`. -/
theorem spec_C10_reachable_no_zeros_witness :
    (VectorClock.new.incr 0).NoZeros ∧
    (VectorClock.new.incr 0 = VectorClock.new.incr_clone (0 : Nat) ↔
      ∀ h, (VectorClock.new.incr 0).count h = (VectorClock.new.incr_clone 0).count h) :=
  spec_C10_reachable_no_zeros _ _
    (Reachable.incr _ 0 Reachable.new)
    (Reachable.incr_clone _ 0 Reachable.new)

/-- C2: `temporal_relation` returns `Equal` iff the two maps are pointwise
equal (a missing key counting as zero), `Caused` iff the first is pointwise
at most the second with at least one key strictly smaller, and `EffectOf` in
the symmetric case.  Stated on canonical clocks without stored zeros, the
invariant every reachable clock satisfies (claim C10). -/
theorem spec_C2_causal_cases {H : Type} [LinearOrder H] (a b : VectorClock H)
    (ha : a.WF) (hb : b.WF) (za : a.NoZeros) (zb : b.NoZeros) :
    (a.temporal_relation b = some .Equal ↔ ∀ h, a.count h = b.count h) ∧
    (a.temporal_relation b = some .Caused ↔
      (∀ h, a.count h ≤ b.count h) ∧ ∃ h, a.count h < b.count h) ∧
    (a.temporal_relation b = some .EffectOf ↔
      (∀ h, b.count h ≤ a.count h) ∧ ∃ h, b.count h < a.count h) := by
  refine ⟨?_, ?_, ?_⟩
  · rw [temporal_relation_eq_equal_iff]
    exact eq_iff_pointwise ha hb za zb
  · rw [temporal_relation_eq_caused_iff ha hb]
    exact superseded_by_iff ha hb
  · rw [temporal_relation_eq_effectof_iff ha hb]
    exact superseded_by_iff hb ha

/-- Witness for C2 at A:1 versus A:2,B:1. -/
theorem spec_C2_causal_cases_witness :
    (clockA.WF ∧ clockAB.WF ∧ clockA.NoZeros ∧ clockAB.NoZeros) ∧
    ((clockA.temporal_relation clockAB = some .Equal ↔
        ∀ h, clockA.count h = clockAB.count h) ∧
     (clockA.temporal_relation clockAB = some .Caused ↔
        (∀ h, clockA.count h ≤ clockAB.count h) ∧ ∃ h, clockA.count h < clockAB.count h) ∧
     (clockA.temporal_relation clockAB = some .EffectOf ↔
        (∀ h, clockAB.count h ≤ clockA.count h) ∧ ∃ h, clockAB.count h < clockA.count h)) :=
  ⟨⟨by decide, by decide, by decide, by decide⟩,
   spec_C2_causal_cases clockA clockAB (by decide) (by decide) (by decide) (by decide)⟩

/-- C1: for causally concurrent clocks (not Equal, Caused, or EffectOf —
that is, structurally distinct and superseding in neither direction),
`temporal_relation` is decided by the deterministic tie-break: strictly more
keys gives `ConcurrentGreater` (strictly fewer `ConcurrentSmaller`); with
equally many keys the sorted key sequences decide lexicographically; with
identical key sequences the first counter inequality in sorted key order
decides (greater counter gives `ConcurrentGreater`). -/
theorem spec_C1_concurrent_tie_break {H : Type} [LinearOrder H]
    (a b : VectorClock H) (ha : a.WF) (hb : b.WF) (hne : a ≠ b)
    (hab : a.superseded_by b = false) (hba : b.superseded_by a = false) :
    (a.keys.length > b.keys.length →
       a.temporal_relation b = some .ConcurrentGreater) ∧
    (a.keys.length < b.keys.length →
       a.temporal_relation b = some .ConcurrentSmaller) ∧
    (a.keys.length = b.keys.length → cmpKeys a.keys b.keys = .gt →
       a.temporal_relation b = some .ConcurrentGreater) ∧
    (a.keys.length = b.keys.length → cmpKeys a.keys b.keys = .lt →
       a.temporal_relation b = some .ConcurrentSmaller) ∧
    (a.keys = b.keys →
       ∀ k, a.keys.find? (fun x => decide (a.count x ≠ b.count x)) = some k →
         (b.count k < a.count k →
            a.temporal_relation b = some .ConcurrentGreater) ∧
         (a.count k < b.count k →
            a.temporal_relation b = some .ConcurrentSmaller)) := by
  have htr := temporal_relation_concurrent hne hab hba
  refine ⟨?_, ?_, ?_, ?_, ?_⟩
  · intro hlen
    have hg : a.is_greater_concurrent_than b = some true := by
      unfold is_greater_concurrent_than
      rw [if_pos hlen]
    rw [htr, hg]
  · intro hlen
    have hg : a.is_greater_concurrent_than b = some false := by
      unfold is_greater_concurrent_than
      rw [if_neg (by omega), if_pos (by omega)]
    rw [htr, hg]
  · intro hlen hcmp
    have hg : a.is_greater_concurrent_than b = some true := by
      unfold is_greater_concurrent_than
      rw [if_neg (by omega), if_neg (by omega), hcmp]
    rw [htr, hg]
  · intro hlen hcmp
    have hg : a.is_greater_concurrent_than b = some false := by
      unfold is_greater_concurrent_than
      rw [if_neg (by omega), if_neg (by omega), hcmp]
    rw [htr, hg]
  · intro hkeys k hfind
    have hlen : a.keys.length = b.keys.length := by rw [hkeys]
    have hcmp : cmpKeys a.keys b.keys = .eq := cmpKeys_eq_iff.mpr hkeys
    have hg : a.is_greater_concurrent_than b = resolveCounters a b a.keys := by
      unfold is_greater_concurrent_than
      rw [if_neg (by omega), if_neg (by omega), hcmp]
    rw [resolveCounters_eq_find] at hg
    have hfind2 : a.keys.find?
        (fun x => decide (get a.entries x ≠ get b.entries x)) = some k := hfind
    rw [hfind2, Option.map_some'] at hg
    constructor
    · intro hgt
      have hd : decide (get b.entries k < get a.entries k) = true :=
        decide_eq_true (by simpa [count] using hgt)
      rw [hd] at hg
      rw [htr, hg]
    · intro hlt
      have hd : decide (get b.entries k < get a.entries k) = false :=
        decide_eq_false (lt_asymm (by simpa [count] using hlt))
      rw [hd] at hg
      rw [htr, hg]

/-- Witness for C1 at the concurrent pair B:1 versus A:1, decided here by
the lexicographic key comparison. -/
theorem spec_C1_concurrent_tie_break_witness :
    (clockB.WF ∧ clockA.WF ∧ clockB ≠ clockA ∧
     clockB.superseded_by clockA = false ∧ clockA.superseded_by clockB = false) ∧
    ((clockB.keys.length > clockA.keys.length →
        clockB.temporal_relation clockA = some .ConcurrentGreater) ∧
     (clockB.keys.length < clockA.keys.length →
        clockB.temporal_relation clockA = some .ConcurrentSmaller) ∧
     (clockB.keys.length = clockA.keys.length → cmpKeys clockB.keys clockA.keys = .gt →
        clockB.temporal_relation clockA = some .ConcurrentGreater) ∧
     (clockB.keys.length = clockA.keys.length → cmpKeys clockB.keys clockA.keys = .lt →
        clockB.temporal_relation clockA = some .ConcurrentSmaller) ∧
     (clockB.keys = clockA.keys →
       ∀ k, clockB.keys.find? (fun x => decide (clockB.count x ≠ clockA.count x)) = some k →
         (clockA.count k < clockB.count k →
            clockB.temporal_relation clockA = some .ConcurrentGreater) ∧
         (clockB.count k < clockA.count k →
            clockB.temporal_relation clockA = some .ConcurrentSmaller))) :=
  ⟨⟨by decide, by decide, by decide, by decide, by decide⟩,
   spec_C1_concurrent_tie_break clockB clockA
     (by decide) (by decide) (by decide) (by decide) (by decide)⟩

/-- Counterexample to C5 as stated: at the concurrent pair A:1 versus B:1
the relation is `ConcurrentSmaller` one way and `ConcurrentGreater` the
other, so exactly one side is not `ConcurrentGreater` and the claimed
biconditional fails. -/
theorem spec_C5_counterexample :
    clockA ≠ clockB ∧
    ¬ ((clockA.temporal_relation clockB ≠ some .ConcurrentGreater) ↔
       (clockB.temporal_relation clockA ≠ some .ConcurrentGreater)) := by
  decide

/-- C5 (amended): for all distinct (canonical) clocks the relation is
`ConcurrentGreater` one way exactly when it is `ConcurrentSmaller` the other
way — on concurrent pairs exactly one side wins, and on causally ordered
pairs neither side is concurrent. -/
theorem spec_C5_amended_total_order {H : Type} [LinearOrder H]
    (a b : VectorClock H) (ha : a.WF) (hb : b.WF) (hne : a ≠ b) :
    a.temporal_relation b = some .ConcurrentGreater ↔
    b.temporal_relation a = some .ConcurrentSmaller := by
  by_cases h1 : a.superseded_by b = true
  · have t1 : a.temporal_relation b = some .Caused :=
      (temporal_relation_eq_caused_iff ha hb).mpr h1
    have t2 : b.temporal_relation a = some .EffectOf :=
      (temporal_relation_eq_effectof_iff hb ha).mpr h1
    rw [t1, t2]
    simp
  · by_cases h2 : b.superseded_by a = true
    · have t1 : a.temporal_relation b = some .EffectOf :=
        (temporal_relation_eq_effectof_iff ha hb).mpr h2
      have t2 : b.temporal_relation a = some .Caused :=
        (temporal_relation_eq_caused_iff hb ha).mpr h2
      rw [t1, t2]
      simp
    · have hab : a.superseded_by b = false := by simpa using h1
      have hba : b.superseded_by a = false := by simpa using h2
      have htr1 := temporal_relation_concurrent hne hab hba
      have htr2 := temporal_relation_concurrent (Ne.symm hne) hba hab
      cases hg : a.is_greater_concurrent_than b with
      | none => exact absurd (eq_of_is_greater_concurrent_than_none ha hg) hne
      | some v =>
        cases v with
        | true =>
          have hg2 : b.is_greater_concurrent_than a = some false :=
            (is_greater_concurrent_than_antisymm ha hb hne).mp hg
          rw [htr1, htr2, hg, hg2]
          simp
        | false =>
          have hg2 : b.is_greater_concurrent_than a = some true :=
            (is_greater_concurrent_than_antisymm hb ha (Ne.symm hne)).mpr hg
          rw [htr1, htr2, hg, hg2]
          simp

/-- Witness for the amended C5 at the equal-key concurrent pair
A:2,B:1 versus A:1,B:2. -/
theorem spec_C5_amended_total_order_witness :
    (clockAB.WF ∧ clockBA.WF ∧ clockAB ≠ clockBA) ∧
    (clockAB.temporal_relation clockBA = some .ConcurrentGreater ↔
     clockBA.temporal_relation clockAB = some .ConcurrentSmaller) :=
  ⟨⟨by decide, by decide, by decide⟩,
   spec_C5_amended_total_order clockAB clockBA (by decide) (by decide) (by decide)⟩

/-- C4: `merge_with` is the pointwise maximum across the union of keys, is
commutative and idempotent, and the merge is at least both inputs under
`temporal_relation` (`Equal` or `Caused`).  Stated on canonical zero-free
clocks, the invariant of every reachable clock (claim C10). -/
theorem spec_C4_merge_pointwise_max {H : Type} [LinearOrder H]
    (a b : VectorClock H) (ha : a.WF) (hb : b.WF) (za : a.NoZeros) (zb : b.NoZeros) :
    (∀ h, (a.merge_with b).count h = max (a.count h) (b.count h)) ∧
    a.merge_with b = b.merge_with a ∧
    a.merge_with a = a ∧
    (a.temporal_relation (a.merge_with b) = some .Equal ∨
     a.temporal_relation (a.merge_with b) = some .Caused) ∧
    (b.temporal_relation (a.merge_with b) = some .Equal ∨
     b.temporal_relation (a.merge_with b) = some .Caused) := by
  have hm : (a.merge_with b).WF := pairwise_mergeEntries _ _ ha hb
  have zm : (a.merge_with b).NoZeros := pos_mergeEntries _ _ za zb
  have hcount : ∀ h, (a.merge_with b).count h = max (a.count h) (b.count h) :=
    fun h => get_mergeEntries _ _ ha hb h
  refine ⟨hcount, ?_, ?_, ?_, ?_⟩
  · exact congrArg VectorClock.mk (mergeEntries_comm _ _)
  · cases a
    simp [merge_with, mergeEntries_self]
  · refine temporal_relation_of_pointwise_le ha hm za zm fun h => ?_
    rw [hcount h]
    exact le_max_left _ _
  · refine temporal_relation_of_pointwise_le hb hm zb zm fun h => ?_
    rw [hcount h]
    exact le_max_right _ _

/-- Witness for C4 at the fan-in pair A:1 and B:1 of `test_merged`. -/
theorem spec_C4_merge_pointwise_max_witness :
    (clockA.WF ∧ clockB.WF ∧ clockA.NoZeros ∧ clockB.NoZeros) ∧
    ((∀ h, (clockA.merge_with clockB).count h = max (clockA.count h) (clockB.count h)) ∧
     clockA.merge_with clockB = clockB.merge_with clockA ∧
     clockA.merge_with clockA = clockA ∧
     (clockA.temporal_relation (clockA.merge_with clockB) = some .Equal ∨
      clockA.temporal_relation (clockA.merge_with clockB) = some .Caused) ∧
     (clockB.temporal_relation (clockA.merge_with clockB) = some .Equal ∨
      clockB.temporal_relation (clockA.merge_with clockB) = some .Caused)) :=
  ⟨⟨by decide, by decide, by decide, by decide⟩,
   spec_C4_merge_pointwise_max clockA clockB
     (by decide) (by decide) (by decide) (by decide)⟩

/-- C3: `update_state(current, incoming)` keeps and returns the stored state
on `Equal`, `EffectOf`, or `ConcurrentGreater`, and replaces it with (and
returns) `incoming` on `Caused` or `ConcurrentSmaller`. -/
theorem spec_C3_update_state {H : Type} [LinearOrder H] (cur inc : CopyClock H) :
    ((cur.clock.temporal_relation inc.clock = some .Equal ∨
      cur.clock.temporal_relation inc.clock = some .EffectOf ∨
      cur.clock.temporal_relation inc.clock = some .ConcurrentGreater) →
        update_state cur inc = some cur) ∧
    ((cur.clock.temporal_relation inc.clock = some .Caused ∨
      cur.clock.temporal_relation inc.clock = some .ConcurrentSmaller) →
        update_state cur inc = some inc) := by
  constructor
  · rintro (h | h | h) <;> simp [update_state, h]
  · rintro (h | h) <;> simp [update_state, h]


/-- Witness for C3: a `Caused` incoming state replaces the stored one. -/
theorem spec_C3_update_state_witness :
    ccOld.clock.temporal_relation ccNew.clock = some .Caused ∧
    update_state ccOld ccNew = some ccNew :=
  ⟨by decide, (spec_C3_update_state ccOld ccNew).2 (Or.inl (by decide))⟩

/-- C6: an incoming `CopyRequest` is answered with a `TextResponse` carrying
the local clipboard iff `state.last_copy_src` equals `own_id`, and otherwise
with an `ErrorResponse` carrying the current state and the error string, a
single response either way; on the requesting side an `ErrorResponse` applies
the state-update rule to the local state before `get_clipboard` returns an
error. -/
theorem spec_C6_serve_copy {H : Type} [LinearOrder H] (own_id : H)
    (st : CopyClock H) (clipboard : String) (mid : MessageID) :
    (st.last_copy_src = own_id →
      handle_copy_connection own_id st clipboard mid =
        CopyConnection.respond clipboard own_id mid ∧
      (handle_copy_connection own_id st clipboard mid).message_type =
        .TextResponse clipboard) ∧
    (st.last_copy_src ≠ own_id →
      handle_copy_connection own_id st clipboard mid =
        CopyConnection.respond_error "I don't have the latest clipboard" st own_id mid ∧
      (handle_copy_connection own_id st clipboard mid).message_type =
        .ErrorResponse st "I don't have the latest clipboard") ∧
    (∀ (ns : NodeState H) (incoming : CopyClock H) (err : String) (u : CopyClock H),
      ns.state.last_copy_src ≠ own_id → ns.cache_state ≠ ns.state →
      update_state ns.state incoming = some u →
      get_clipboard own_id ns (.errorResponse incoming err) =
        some ⟨.error ("remote  replied with error: " ++ err),
              { ns with state := u }, true⟩) := by
  refine ⟨?_, ?_, ?_⟩
  · intro h
    constructor
    · simp [handle_copy_connection, h]
    · simp [handle_copy_connection, h, CopyConnection.respond]
  · intro h
    constructor
    · simp [handle_copy_connection, h]
    · simp [handle_copy_connection, h, CopyConnection.respond_error]
  · intro ns incoming err u h1 h2 h3
    simp [get_clipboard, h1, h2, h3]


/-- Witness for C6: the owner serves the clipboard, a non-owner serves the
error, and the requester folds the attached state in before erroring (here
the incoming state loses the concurrent tie-break, so the state is kept). -/
theorem spec_C6_serve_copy_witness :
    handle_copy_connection 1 ccNew "clip" (fun _ => 0) =
      CopyConnection.respond "clip" 1 (fun _ => 0) ∧
    handle_copy_connection 0 ccNew "clip" (fun _ => 0) =
      CopyConnection.respond_error "I don't have the latest clipboard" ccNew 0 (fun _ => 0) ∧
    get_clipboard 0 nsStale (.errorResponse ccIncoming "boom") =
      some ⟨.error ("remote  replied with error: " ++ "boom"),
            { nsStale with state := nsStale.state }, true⟩ :=
  ⟨((spec_C6_serve_copy 1 ccNew "clip" (fun _ => 0)).1 (by decide)).1,
   ((spec_C6_serve_copy 0 ccNew "clip" (fun _ => 0)).2.1 (by decide)).1,
   (spec_C6_serve_copy 0 ccNew "clip" (fun _ => 0)).2.2 nsStale ccIncoming "boom"
     nsStale.state (by decide) (by decide) (by decide)⟩

/-- C7: `get_clipboard` returns none when the snapshotted state names the
node itself as last copier; otherwise, when the snapshot equals
`cache_state` it returns the cached string without opening a CopyConnection;
and on a successful remote `TextResponse` it stores the text and the current
state into the cache and returns the text. -/
theorem spec_C7_get_clipboard_cache {H : Type} [LinearOrder H] (own_id : H)
    (ns : NodeState H) (fetch : FetchResult H) :
    (ns.state.last_copy_src = own_id →
      get_clipboard own_id ns fetch = some ⟨.ok none, ns, false⟩) ∧
    (ns.state.last_copy_src ≠ own_id → ns.cache_state = ns.state →
      get_clipboard own_id ns fetch =
        some ⟨.ok (some ns.cached_clipboard), ns, false⟩) ∧
    (∀ text, ns.state.last_copy_src ≠ own_id → ns.cache_state ≠ ns.state →
      fetch = .textResponse text →
      get_clipboard own_id ns fetch =
        some ⟨.ok (some text),
              { ns with cached_clipboard := text, cache_state := ns.state },
              true⟩) := by
  refine ⟨?_, ?_, ?_⟩
  · intro h
    simp [get_clipboard, h]
  · intro h1 h2
    simp [get_clipboard, h1, h2]
  · intro text h1 h2 h3
    subst h3
    simp [get_clipboard, h1, h2]

/-- Witness for C7: the owner sees none, a fresh cache is served without a
connection, and a fetched text refreshes the cache. -/
theorem spec_C7_get_clipboard_cache_witness :
    get_clipboard 0 nsOwn .invalid = some ⟨.ok none, nsOwn, false⟩ ∧
    get_clipboard 0 nsFresh .invalid =
      some ⟨.ok (some nsFresh.cached_clipboard), nsFresh, false⟩ ∧
    get_clipboard 0 nsStale (.textResponse "fresh") =
      some ⟨.ok (some "fresh"),
            { nsStale with cached_clipboard := "fresh", cache_state := nsStale.state },
            true⟩ :=
  ⟨(spec_C7_get_clipboard_cache 0 nsOwn .invalid).1 (by decide),
   (spec_C7_get_clipboard_cache 0 nsFresh .invalid).2.1 (by decide) (by decide),
   (spec_C7_get_clipboard_cache 0 nsStale (.textResponse "fresh")).2.2 "fresh"
     (by decide) (by decide) rfl⟩

/-- C8: a `JoinRequest` whose `message_id` was already seen closes the
connection immediately with no response and no forwarding; otherwise the id
is recorded, and with `ttl ≤ 1` the handler sends exactly one `JoinResponse`
with `target = msg.src_id` and `src_id = own_id` and closes, forwarding to no
peer. -/
theorem spec_C8_join_request {H : Type} [LinearOrder H] (peers : List H)
    (own_id : H) (msg : Message H) (seen : List MessageID) :
    (msg.message_id ∈ seen →
      handle_join_connection peers own_id msg seen = (seen, .closedDuplicate)) ∧
    (msg.message_id ∉ seen →
      (handle_join_connection peers own_id msg seen).1 = msg.message_id :: seen ∧
      (msg.ttl ≤ 1 →
        (handle_join_connection peers own_id msg seen).2 =
          .replyAndClose (JoinConnection.respond own_id msg) ∧
        (JoinConnection.respond own_id msg).message_type = .JoinResponse msg.src_id ∧
        (JoinConnection.respond own_id msg).src_id = own_id)) := by
  refine ⟨?_, ?_⟩
  · intro h
    simp [handle_join_connection, h]
  · intro h
    constructor
    · by_cases httl : msg.ttl ≤ 1 <;> simp [handle_join_connection, h, httl]
    · intro httl
      exact ⟨by simp [handle_join_connection, h, httl], rfl, rfl⟩


/-- Witness for C8: the duplicate is dropped, and the fresh TTL-1 request
gets exactly the single reply. -/
theorem spec_C8_join_request_witness :
    handle_join_connection [7] 9 msgJoin [fun _ => 0] =
      ([fun _ => 0], .closedDuplicate) ∧
    (handle_join_connection [7] 9 msgJoin []).1 = [msgJoin.message_id] ∧
    (handle_join_connection [7] 9 msgJoin []).2 =
      .replyAndClose (JoinConnection.respond 9 msgJoin) ∧
    (JoinConnection.respond 9 msgJoin).message_type = .JoinResponse msgJoin.src_id ∧
    (JoinConnection.respond 9 msgJoin).src_id = 9 :=
  ⟨(spec_C8_join_request [7] 9 msgJoin [fun _ => 0]).1 (by decide),
   ((spec_C8_join_request [7] 9 msgJoin []).2 (by decide)).1,
   ((spec_C8_join_request [7] 9 msgJoin []).2 (by decide)).2 (by decide)⟩
